import Mathlib

/-! Shallow embedding of `EBEncoding.py` (episode bitwise encoding).

Conventions used throughout:
* Python arbitrary-precision nonnegative integers are modelled as `ℕ`;
  calendar instants and durations (`datetime`/`timedelta`) are modelled as `ℤ`
  (a time line measured in whole units, with `timedelta` an additive offset).
* a Python method that can `raise` is modelled as a function into
  `Except String _`; the in-place mutators `scale_down` and `post_expand`
  never raise and are modelled as pure functions returning the new instance.
* Python's `c & ~x` on nonnegative bignums (clear in `c` every bit set in `x`)
  is modelled by `clearBits c x = c ^^^ (c &&& x)`, which computes exactly that
  bit function (`1,1 ↦ 0`, `1,0 ↦ 1`, `0,_ ↦ 0`) while staying in `ℕ`.
-/

/-- Encoding instance: the raw integer `coding` and the declared width `bit_size`,
mirroring the two attributes set by `EBEncoding.__init__`. -/
structure EBEncoding where
  coding : ℕ
  bit_size : ℕ
  deriving DecidableEq, Repr

/-- Message of the constructor overflow error
(`'value ({}) is too large to fit the size ({}) {}'`, format arguments elided). -/
def invalidWidthMsg : String := "value is too large to fit the size"

/-- Message raised by `eb_and` / `eb_or` / `op_consistence` on mismatched operands. -/
def incompatibleOperandsMsg : String :=
  "one or more operands are not EBEncoding instances or they are not equally sized"

/-- Message raised by `EBVector.intersection` on vectors of different element counts. -/
def incompatibleSizeMsg : String := "intersecting with an incompatible vector"

/-- Message for a Python `IndexError` when a vector element index is out of range. -/
def indexOutOfRangeMsg : String := "index out of range"

/-- Embedding of `EBEncoding.__init__`: `if value >= 2**size - 1: raise ...`,
otherwise store `(value, size)`. -/
def EBEncoding.construct (value size : ℕ) : Except String EBEncoding :=
  if 2 ^ size - 1 ≤ value then .error invalidWidthMsg
  else .ok ⟨value, size⟩

/-- Embedding of `EBEncoding.size`. -/
def EBEncoding.size (e : EBEncoding) : ℕ := e.bit_size

/-- Embedding of `EBEncoding.coding_value`. -/
def EBEncoding.coding_value (e : EBEncoding) : ℕ := e.coding

/-- Embedding of `EBEncoding.get_bin_list`. The Python code builds
`BitArray(bin(self.coding))` (the minimal binary string of `coding`) and
left-pads it with `'0'` to `size()` characters, so the character at index
`idx` is the binary digit of `coding` at integer bit position
`size - 1 - idx` (`'0'` for the padding positions, where that digit is 0). -/
def EBEncoding.get_bin_list (e : EBEncoding) : List Char :=
  (List.range e.bit_size).map fun idx =>
    if e.coding.testBit (e.bit_size - 1 - idx) then '1' else '0'

/-- Embedding of `EBEncoding.scale_down`. `final_size` is
`int(math.ceil(self.size() * 1.0 / bits2merge))`, i.e. the ceiling
`(size + bits2merge - 1) / bits2merge` in exact arithmetic; the slice
`barr[i*bits2merge : min((i+1)*bits2merge, len(barr))]` is `drop` then
`take` of the difference of the two slice bounds. -/
def EBEncoding.scale_down (e : EBEncoding) (bits2merge : ℕ) : EBEncoding :=
  let barr := e.get_bin_list
  let final_size := (e.bit_size + bits2merge - 1) / bits2merge
  let result_coding := (List.range final_size).foldl
    (fun result i =>
      if ((barr.drop (i * bits2merge)).take
            (min ((i + 1) * bits2merge) barr.length - i * bits2merge)).count '1' > 0
      then result ||| (1 <<< (final_size - i - 1))
      else result)
    0
  ⟨result_coding, final_size⟩

/-- Python `c & ~x` for nonnegative bignums: clear in `c` every bit set in `x`. -/
def clearBits (c x : ℕ) : ℕ := c ^^^ (c &&& x)

/-- Embedding of `EBEncoding.post_expand`: starting from
`x = 1 << bit_size`, repeat `num_bits` times `coding |= coding << 1;`
`x |= x << 1`, then `coding &= ~x`. The loop is the `num_bits`-fold iterate
of the componentwise step on the pair `(coding, x)`. -/
def EBEncoding.post_expand (e : EBEncoding) (num_bits : ℕ) : EBEncoding :=
  let s := (fun p : ℕ × ℕ => (p.1 ||| p.1 <<< 1, p.2 ||| p.2 <<< 1))^[num_bits]
    (e.coding, 1 <<< e.bit_size)
  ⟨clearBits s.1 s.2, e.bit_size⟩

/-- Embedding of `EBEncoding.clone`: `EBEncoding(self.coding, self.size())`,
which goes through the constructor and hence can raise its overflow error. -/
def EBEncoding.clone (e : EBEncoding) : Except String EBEncoding :=
  EBEncoding.construct e.coding e.size

/-- Embedding of `EBEncoding.eb_and` (the `isinstance` checks are vacuous under
typing; the width check remains). The result goes through the constructor. -/
def EBEncoding.eb_and (e1 e2 : EBEncoding) : Except String EBEncoding :=
  if e1.size = e2.size then
    EBEncoding.construct (e1.coding_value &&& e2.coding_value) e1.size
  else .error incompatibleOperandsMsg

/-- Embedding of `EBEncoding.eb_or`. -/
def EBEncoding.eb_or (e1 e2 : EBEncoding) : Except String EBEncoding :=
  if e1.size = e2.size then
    EBEncoding.construct (e1.coding_value ||| e2.coding_value) e1.size
  else .error incompatibleOperandsMsg

/-- Embedding of `EBEncoding.op_consistence`. -/
def EBEncoding.op_consistence (e1 e2 : EBEncoding) : Except String Unit :=
  if e1.size ≠ e2.size then .error incompatibleOperandsMsg else .ok ()

/-- Embedding of `EBEncoding.interaction`: zero short-circuit (through the
constructor, with `e1`'s width), width consistency check, clone both operands
(each clone can raise), post-expand the clones in place, then `eb_and`. -/
def EBEncoding.interaction (e1 e2 : EBEncoding) (pe_bits : ℕ) :
    Except String EBEncoding :=
  if e1.coding_value = 0 ∨ e2.coding_value = 0 then
    EBEncoding.construct 0 e1.size
  else do
    let _ ← EBEncoding.op_consistence e1 e2
    let pe_e1 ← e1.clone
    let pe_e1 := pe_e1.post_expand pe_bits
    let pe_e2 ← e2.clone
    let pe_e2 := pe_e2.post_expand pe_bits
    EBEncoding.eb_and pe_e1 pe_e2

/-- Loop body of `EBEncoding.get_encoding` on the state `(cur, code, is_in)`:
test the current instant against `[start_time, end_time]`, and when
`i % interval == 0` record the (possibly) seen hit at integer bit
`(num_bits - 1 - i) / interval` and reset `is_in`; finally advance `cur`. -/
def window_step (start_time end_time time_delta : ℤ) (num_bits interval : ℕ)
    (s : ℤ × ℕ × Bool) (i : ℕ) : ℤ × ℕ × Bool :=
  let is_in := s.2.2 || decide (start_time ≤ s.1 ∧ s.1 ≤ end_time)
  let cb :=
    if i % interval = 0 then
      (if is_in then s.2.1 ||| (1 <<< ((num_bits - 1 - i) / interval))
       else s.2.1, false)
    else (s.2.1, is_in)
  (s.1 + time_delta, cb)

/-- Loop value of `EBEncoding.get_encoding`: walk `num_bits` steps from
`coordinate_time`, adding `time_delta` each iteration, with the source's
fixed `interval = 1` compression setting. -/
def window_code (start_time end_time coordinate_time time_delta : ℤ)
    (num_bits : ℕ) : ℕ :=
  (((List.range num_bits).foldl
    (window_step start_time end_time time_delta num_bits 1)
    (coordinate_time, 0, false)).2).1

/-- Embedding of `EBEncoding.get_encoding`: the loop result is passed to the
constructor (`EBEncoding(code, num_bits)`), which can raise. -/
def EBEncoding.get_encoding (start_time end_time coordinate_time time_delta : ℤ)
    (num_bits : ℕ) : Except String EBEncoding :=
  EBEncoding.construct
    (window_code start_time end_time coordinate_time time_delta num_bits) num_bits

/-- Embedding of `EBVector` with the dense (list) backing; the sparse backing
reads an element the same way (`int(self.ebvec[index, 0])`), so the claims
about `intersection` are settled over the dense accessor contract. -/
structure EBVector where
  ebvec : List ℕ
  coding_size : ℕ
  deriving DecidableEq

/-- Embedding of `EBVector.get_size` (dense branch: `len(self.ebvec)`). -/
def EBVector.get_size (v : EBVector) : ℕ := v.ebvec.length

/-- Embedding of `EBVector.get_coding`: wrap the raw element through the
`EBEncoding` constructor; a Python out-of-range index raises `IndexError`. -/
def EBVector.get_coding (v : EBVector) (index : ℕ) : Except String EBEncoding :=
  match v.ebvec[index]? with
  | some value => EBEncoding.construct value v.coding_size
  | none => .error indexOutOfRangeMsg

/-- Key string `'{} {}'.format(i, j)` built by `EBVector.intersection` when no
labels are supplied (the claims use the label-free form). -/
def pairKey (i j : ℕ) : String := toString i ++ " " ++ toString j

/-- Index pairs visited by the nested loops
`for i in range(n): for j in range(i + 1, n)`, flattened in loop order. -/
def upperPairs (n : ℕ) : List (ℕ × ℕ) :=
  (List.range n).flatMap fun i => (List.range' (i + 1) (n - (i + 1))).map fun j => (i, j)

/-- One pair's interaction inside `EBVector.intersection`:
`EBEncoding.interaction(self.get_coding(i), other_vec.get_coding(j), pe_bits)`. -/
def interAt (v1 v2 : EBVector) (pe_bits : ℕ) (ij : ℕ × ℕ) :
    Except String EBEncoding :=
  do
    let e1 ← v1.get_coding ij.1
    let e2 ← v2.get_coding ij.2
    EBEncoding.interaction e1 e2 pe_bits

/-- Entry contributed by one index pair to the result of
`EBVector.intersection`, when its interaction succeeds and is non-zero. -/
def interEntry (v1 v2 : EBVector) (pe_bits : ℕ) (ij : ℕ × ℕ) :
    Option (String × ℕ) :=
  match interAt v1 v2 pe_bits ij with
  | .ok e => if e.coding_value ≠ 0 then some (pairKey ij.1 ij.2, e.coding_value)
             else none
  | .error _ => none

/-- Embedding of `EBVector.intersection` (label-free form): size guard, then
the nested loops accumulate `ret_list[key] = value` and `nonzero_keys.add(key)`
for each non-zero pairwise interaction. The Python dict is modelled as an
insertion-ordered association list (the keys `'i j'` of distinct pairs are
distinct, so appending coincides with dict assignment) and the Python set as a
`Finset String`. Any exception raised inside the loops propagates. -/
def EBVector.intersection (v1 v2 : EBVector) (pe_bits : ℕ) :
    Except String (List (String × ℕ) × Finset String) :=
  if v1.get_size ≠ v2.get_size then .error incompatibleSizeMsg
  else
    (upperPairs v1.get_size).foldlM
      (fun acc ij => do
        let inter_coding ← interAt v1 v2 pe_bits ij
        if inter_coding.coding_value ≠ 0 then
          pure (acc.1 ++ [(pairKey ij.1 ij.2, inter_coding.coding_value)],
                insert (pairKey ij.1 ij.2) acc.2)
        else pure acc)
      ([], ∅)

/-! ## General bit-level helper lemmas -/

/-- Set bits of a fold that ORs in the single bit `pos i` for every index `i`
of the list satisfying `P`. -/
theorem testBit_orFold (P : ℕ → Prop) [DecidablePred P] (pos : ℕ → ℕ) :
    ∀ (l : List ℕ) (c k : ℕ),
      (l.foldl (fun acc i => if P i then acc ||| (1 <<< pos i) else acc) c).testBit k
        = true ↔ c.testBit k = true ∨ ∃ i ∈ l, P i ∧ pos i = k := by
  intro l
  induction l with
  | nil => simp
  | cons hd tl ih =>
    intro c k
    simp only [List.foldl_cons, List.exists_mem_cons_iff]
    rw [ih]
    by_cases h : P hd
    · simp only [if_pos h, Nat.testBit_or, Nat.one_shiftLeft, Nat.testBit_two_pow,
        Bool.or_eq_true, decide_eq_true_eq]
      tauto
    · simp only [if_neg h]
      tauto

/-- Bound for the same fold: it never leaves `[0, 2^W)` when the seed is in
that range and every recorded position is below `W`. -/
theorem orFold_lt_two_pow (P : ℕ → Prop) [DecidablePred P] (pos : ℕ → ℕ) :
    ∀ (l : List ℕ) (c W : ℕ), c < 2 ^ W → (∀ i ∈ l, pos i < W) →
      (l.foldl (fun acc i => if P i then acc ||| (1 <<< pos i) else acc) c) < 2 ^ W := by
  intro l
  induction l with
  | nil => intro c W hc _; simpa using hc
  | cons hd tl ih =>
    intro c W hc hpos
    simp only [List.foldl_cons]
    apply ih
    · by_cases h : P hd
      · simp only [if_pos h]
        apply Nat.or_lt_two_pow hc
        rw [Nat.one_shiftLeft]
        exact Nat.pow_lt_pow_right (by norm_num) (hpos hd (by simp))
      · simpa [if_neg h] using hc
    · intro i hi
      exact hpos i (by simp [hi])

/-- Componentwise view of the iterated pair step of `post_expand`. -/
theorem iterate_orShl_pair :
    ∀ (n : ℕ) (a b : ℕ),
      (fun p : ℕ × ℕ => (p.1 ||| p.1 <<< 1, p.2 ||| p.2 <<< 1))^[n] (a, b)
        = ((fun c => c ||| c <<< 1)^[n] a, (fun c => c ||| c <<< 1)^[n] b) := by
  intro n
  induction n with
  | zero => intro a b; rfl
  | succ n ih =>
    intro a b
    rw [Function.iterate_succ_apply, Function.iterate_succ_apply,
      Function.iterate_succ_apply]
    exact ih (a ||| a <<< 1) (b ||| b <<< 1)

/-- Set bits of the `n`-fold self-OR-with-left-shift: position `t` is set
exactly when some original set bit lies at most `n` positions below `t`. -/
theorem iterate_orShiftLeft_testBit :
    ∀ (n : ℕ) (c t : ℕ),
      ((fun c => c ||| c <<< 1)^[n] c).testBit t = true ↔
        ∃ j, j ≤ n ∧ j ≤ t ∧ c.testBit (t - j) = true := by
  intro n
  induction n with
  | zero =>
    intro c t
    constructor
    · intro h
      exact ⟨0, le_rfl, Nat.zero_le t, by simpa using h⟩
    · rintro ⟨j, hj0, -, hbit⟩
      interval_cases j
      simpa using hbit
  | succ n ih =>
    intro c t
    rw [Function.iterate_succ_apply']
    simp only [Nat.testBit_or, Nat.testBit_shiftLeft, Bool.or_eq_true,
      Bool.and_eq_true, decide_eq_true_eq]
    constructor
    · rintro (h | ⟨h1, h2⟩)
      · obtain ⟨j, hjn, hjt, hbit⟩ := (ih c t).1 h
        exact ⟨j, Nat.le_succ_of_le hjn, hjt, hbit⟩
      · obtain ⟨j, hjn, hjt, hbit⟩ := (ih c (t - 1)).1 h2
        refine ⟨j + 1, by omega, by omega, ?_⟩
        have : t - (j + 1) = t - 1 - j := by omega
        rwa [this]
    · rintro ⟨j, hjn, hjt, hbit⟩
      by_cases hj : j ≤ n
      · exact Or.inl ((ih c t).2 ⟨j, hj, hjt, hbit⟩)
      · refine Or.inr ⟨by omega, (ih c (t - 1)).2 ⟨j - 1, by omega, by omega, ?_⟩⟩
        have : t - 1 - (j - 1) = t - j := by omega
        rwa [this]

/-- Growth bound for the `n`-fold self-OR-with-left-shift. -/
theorem iterate_orShiftLeft_lt :
    ∀ (n : ℕ) (c W : ℕ), c < 2 ^ W →
      (fun c => c ||| c <<< 1)^[n] c < 2 ^ (W + n) := by
  intro n
  induction n with
  | zero => intro c W h; simpa using h
  | succ n ih =>
    intro c W h
    rw [Function.iterate_succ_apply']
    have hy : (fun c => c ||| c <<< 1)^[n] c < 2 ^ (W + n) := ih c W h
    apply Nat.or_lt_two_pow
    · exact lt_of_lt_of_le hy (Nat.pow_le_pow_right (by norm_num) (by omega))
    · rw [Nat.shiftLeft_eq]
      have : 2 ^ (W + (n + 1)) = 2 ^ (W + n) * 2 ^ 1 := by ring
      rw [this]
      exact Nat.mul_lt_mul_of_lt_of_le hy (by norm_num) (by norm_num)

/-- Bit function of `clearBits`: keep a bit of `c` unless `x` has it. -/
theorem clearBits_testBit (c x t : ℕ) :
    (clearBits c x).testBit t = (c.testBit t && !(x.testBit t)) := by
  simp only [clearBits, Nat.testBit_xor, Nat.testBit_and]
  cases c.testBit t <;> cases x.testBit t <;> rfl


theorem window_fold (st en co de : ℤ) (n : ℕ) :
    ∀ (len : ℕ), ∀ (a : ℕ), ∀ (code : ℕ),
      (List.range' a len).foldl (window_step st en de n 1) (co + a * de, code, false)
        = (co + (a + len) * de,
           (List.range' a len).foldl
             (fun (acc : ℕ) (i : ℕ) => if st ≤ co + (i : ℤ) * de ∧ co + (i : ℤ) * de ≤ en
                           then acc ||| (1 <<< (n - 1 - i)) else acc) code,
           false) := by
  intro len
  induction len with
  | zero =>
    intro a code
    simp [List.range']
  | succ len ih =>
    intro a code
    rw [List.range'_succ, List.foldl_cons, List.foldl_cons]
    have hstep : window_step st en de n 1 (co + a * de, code, false) a
        = (co + ((a : ℕ) + 1 : ℕ) * de,
           (if st ≤ co + a * de ∧ co + a * de ≤ en
            then code ||| (1 <<< (n - 1 - a)) else code),
           false) := by
      simp only [window_step, Bool.false_or, Nat.mod_one, Nat.div_one, if_pos,
        decide_eq_true_eq]
      refine Prod.ext ?_ (Prod.ext ?_ rfl)
      · push_cast
        ring
      · by_cases h : st ≤ co + a * de ∧ co + a * de ≤ en
        · simp [h]
        · simp [h]
    rw [hstep, ih (a + 1)]
    refine Prod.ext ?_ rfl
    push_cast
    ring

/-- The `get_encoding` loop value is the OR-fold of the per-step window tests. -/
theorem window_code_eq (st en co de : ℤ) (n : ℕ) :
    window_code st en co de n
      = (List.range n).foldl
          (fun (acc : ℕ) (i : ℕ) =>
            if st ≤ co + (i : ℤ) * de ∧ co + (i : ℤ) * de ≤ en
            then acc ||| (1 <<< (n - 1 - i)) else acc) 0 := by
  unfold window_code
  rw [List.range_eq_range']
  have h := window_fold st en co de n n 0 0
  norm_num at h
  rw [h]

/-- C1 (amended): with the source's most-significant-first indexing, step `i`
of the walk sets spec bit index `i`, i.e. integer bit `num_bits - 1 - i`, and
the walk instant at step `i` is `coordinate_time + i * time_delta`; the
encoding object (of width `num_bits`) is produced whenever the accumulated
code passes the constructor check. -/
theorem C1_get_encoding_bits (st en co de : ℤ) (n : ℕ) (h : st ≤ en) :
    (∀ i, i < n →
      ((window_code st en co de n).testBit (n - 1 - i) = true ↔
        st ≤ co + (i : ℤ) * de ∧ co + (i : ℤ) * de ≤ en)) ∧
    (window_code st en co de n < 2 ^ n - 1 →
      EBEncoding.get_encoding st en co de n
        = .ok ⟨window_code st en co de n, n⟩) := by
  constructor
  · intro i hi
    rw [window_code_eq]
    rw [testBit_orFold (fun j => st ≤ co + (j : ℤ) * de ∧ co + (j : ℤ) * de ≤ en)
      (fun j => n - 1 - j) (List.range n) 0 (n - 1 - i)]
    simp only [Nat.zero_testBit, Bool.false_eq_true, List.mem_range, false_or]
    constructor
    · rintro ⟨j, hj, hPj, hpos⟩
      have : j = i := by omega
      subst this
      exact hPj
    · intro hP
      exact ⟨i, hi, hP, rfl⟩
  · intro hlt
    unfold EBEncoding.get_encoding EBEncoding.construct
    rw [if_neg (by omega)]

/-- Witness for C1: in the concrete scenario (`start = end = reference`,
`step = -1`, `bit_count = 4`) the reference instant is in the window at step
`i = 0`, so integer bit `4 - 1 - 0 = 3` (value 8) is set. -/
theorem C1_get_encoding_bits_witness :
    (window_code 0 0 0 (-1) 4).testBit 3 = true ∧
    EBEncoding.get_encoding 0 0 0 (-1) 4 = .ok ⟨window_code 0 0 0 (-1) 4, 4⟩ := by
  have h := C1_get_encoding_bits 0 0 0 (-1) 4 (by norm_num)
  constructor
  · exact (h.1 0 (by norm_num)).2 (by norm_num)
  · exact h.2 (by decide)

/-- C1 counterexample: the claim predicts value 1 (least significant bit) for
the concrete scenario, but the code walks the most-significant bit first and
yields value 8. -/
theorem C1_counterexample :
    EBEncoding.get_encoding 0 0 0 (-1) 4 = .ok ⟨8, 4⟩ ∧ (8 : ℕ) ≠ 1 := by
  constructor
  · rfl
  · norm_num

/-- C2: the constructor rejects exactly the values `v ≥ 2^w - 1` and
round-trips smaller values through the two accessors. -/
theorem C2_construct_spec (v w : ℕ) :
    (2 ^ w - 1 ≤ v → EBEncoding.construct v w = .error invalidWidthMsg) ∧
    (v < 2 ^ w - 1 →
      ∃ e, EBEncoding.construct v w = .ok e ∧ e.coding_value = v ∧ e.size = w) := by
  constructor
  · intro h
    simp [EBEncoding.construct, h]
  · intro h
    refine ⟨⟨v, w⟩, ?_, rfl, rfl⟩
    simp [EBEncoding.construct, h, Nat.not_le.2 h]

/-- Witness for C2 at `w = 3`: value 7 is rejected, value 6 round-trips. -/
theorem C2_construct_spec_witness :
    EBEncoding.construct 7 3 = .error invalidWidthMsg ∧
    ∃ e, EBEncoding.construct 6 3 = .ok e ∧ e.coding_value = 6 ∧ e.size = 3 :=
  ⟨(C2_construct_spec 7 3).1 (by norm_num), (C2_construct_spec 6 3).2 (by norm_num)⟩

/-- C3 counterexample: both operands are validly constructed and share width
2, yet `eb_or` raises the constructor overflow error, because the OR of the
two values is the all-ones pattern `2^2 - 1` the constructor rejects; so
`eb_or` is not closed over equal-width validly constructed operands. -/
theorem C3_counterexample :
    EBEncoding.construct 2 2 = .ok ⟨2, 2⟩ ∧
    EBEncoding.construct 1 2 = .ok ⟨1, 2⟩ ∧
    EBEncoding.eb_or ⟨2, 2⟩ ⟨1, 2⟩ = .error invalidWidthMsg := ⟨rfl, rfl, rfl⟩

/-- C3 (amended): over equal-width validly constructed operands `eb_and` is
closed and commutative with `eb_and e e = e`; `eb_or` is commutative and
equals the constructor applied to the OR of the values — it succeeds with the
bitwise OR at the shared width exactly when that OR is not the all-ones
pattern, and raises `InvalidWidth` otherwise — and `eb_or e zero = e`. -/
theorem C3_and_or_algebra (a b : EBEncoding) (hw : a.bit_size = b.bit_size)
    (ha : a.coding < 2 ^ a.bit_size - 1) (hb : b.coding < 2 ^ b.bit_size - 1) :
    (EBEncoding.eb_and a b = .ok ⟨a.coding &&& b.coding, a.bit_size⟩) ∧
    (EBEncoding.eb_and a b = EBEncoding.eb_and b a) ∧
    (EBEncoding.eb_and a a = .ok a) ∧
    (EBEncoding.eb_or a b = EBEncoding.construct (a.coding ||| b.coding) a.bit_size) ∧
    (a.coding ||| b.coding < 2 ^ a.bit_size - 1 →
      EBEncoding.eb_or a b = .ok ⟨a.coding ||| b.coding, a.bit_size⟩) ∧
    (2 ^ a.bit_size - 1 ≤ a.coding ||| b.coding →
      EBEncoding.eb_or a b = .error invalidWidthMsg) ∧
    (EBEncoding.eb_or a b = EBEncoding.eb_or b a) ∧
    (EBEncoding.eb_or a ⟨0, a.bit_size⟩ = .ok a) := by
  obtain ⟨va, wa⟩ := a
  obtain ⟨vb, wb⟩ := b
  simp only [EBEncoding.mk.injEq] at hw ⊢
  simp only at ha hb
  subst hw
  have hand : va &&& vb < 2 ^ wa - 1 := lt_of_le_of_lt Nat.and_le_left ha
  refine ⟨?_, ?_, ?_, ?_, ?_, ?_, ?_, ?_⟩
  · simp [EBEncoding.eb_and, EBEncoding.size, EBEncoding.coding_value,
      EBEncoding.construct, Nat.not_le.2 hand]
  · simp only [EBEncoding.eb_and, EBEncoding.size, EBEncoding.coding_value, if_pos,
      EBEncoding.construct]
    rw [Nat.land_comm]
  · simp [EBEncoding.eb_and, EBEncoding.size, EBEncoding.coding_value,
      EBEncoding.construct, Nat.and_self, Nat.not_le.2 ha]
  · simp [EBEncoding.eb_or, EBEncoding.size, EBEncoding.coding_value]
  · intro hor
    simp [EBEncoding.eb_or, EBEncoding.size, EBEncoding.coding_value,
      EBEncoding.construct, Nat.not_le.2 hor]
  · intro hor
    simp [EBEncoding.eb_or, EBEncoding.size, EBEncoding.coding_value,
      EBEncoding.construct, hor]
  · simp only [EBEncoding.eb_or, EBEncoding.size, EBEncoding.coding_value, if_pos,
      EBEncoding.construct]
    rw [Nat.lor_comm]
  · simp [EBEncoding.eb_or, EBEncoding.size, EBEncoding.coding_value,
      EBEncoding.construct, Nat.not_le.2 ha]

/-- Witness for C3 at `a = ⟨2,3⟩`, `b = ⟨4,3⟩`. -/
theorem C3_and_or_algebra_witness :
    EBEncoding.eb_and ⟨2, 3⟩ ⟨4, 3⟩ = .ok ⟨0, 3⟩ ∧
    EBEncoding.eb_or ⟨2, 3⟩ ⟨4, 3⟩ = .ok ⟨6, 3⟩ ∧
    EBEncoding.eb_and ⟨2, 3⟩ ⟨2, 3⟩ = .ok ⟨2, 3⟩ := by
  have h := C3_and_or_algebra ⟨2, 3⟩ ⟨4, 3⟩ rfl (by norm_num) (by norm_num)
  exact ⟨h.1, (h.2.2.2.2.1 (by decide)), h.2.2.1⟩

/-- C9: the zero short-circuit of `interaction` returns the zero encoding at
`e1`'s width without any width-compatibility check; the width-1-or-more
hypothesis holds for every constructible instance (the constructor rejects
every value at width 0, and the mutators keep the width positive). -/
theorem C9_interaction_zero (a b : EBEncoding) (k : ℕ)
    (h : a.coding = 0 ∨ b.coding = 0) (hw : 0 < a.bit_size) :
    EBEncoding.interaction a b k = .ok ⟨0, a.bit_size⟩ := by
  have h2 : (1 : ℕ) < 2 ^ a.bit_size := Nat.one_lt_two_pow_iff.2 (by omega)
  simp only [EBEncoding.interaction, EBEncoding.coding_value, EBEncoding.size]
  rw [if_pos h]
  unfold EBEncoding.construct
  rw [if_neg (by omega)]

/-- Witness for C9: operands of different widths (2 and 5), first operand
zero; no error is raised and the result has the first operand's width. -/
theorem C9_interaction_zero_witness :
    EBEncoding.interaction ⟨0, 2⟩ ⟨3, 5⟩ 7 = .ok ⟨0, 2⟩ :=
  C9_interaction_zero ⟨0, 2⟩ ⟨3, 5⟩ 7 (Or.inl rfl) (by norm_num)

/-- Characterization of `post_expand`: the final mask `x` covers exactly the
integer bits `bit_size .. bit_size + num_bits`, which is everything the
expansion loop can spill past the width, so clearing it is reduction modulo
`2 ^ bit_size`. -/
theorem post_expand_eq (e : EBEncoding) (h : e.coding < 2 ^ e.bit_size) (n : ℕ) :
    e.post_expand n
      = ⟨((fun c => c ||| c <<< 1)^[n] e.coding) % 2 ^ e.bit_size, e.bit_size⟩ := by
  unfold EBEncoding.post_expand
  dsimp only
  rw [iterate_orShl_pair]
  simp only [EBEncoding.mk.injEq, and_true]
  apply Nat.eq_of_testBit_eq
  intro t
  rw [clearBits_testBit, Nat.testBit_mod_two_pow]
  have hx : ∀ t', ((fun c => c ||| c <<< 1)^[n] (1 <<< e.bit_size)).testBit t' = true ↔
      (e.bit_size ≤ t' ∧ t' ≤ e.bit_size + n) := by
    intro t'
    rw [iterate_orShiftLeft_testBit]
    constructor
    · rintro ⟨j, hjn, hjt, hbit⟩
      rw [Nat.one_shiftLeft, Nat.testBit_two_pow, decide_eq_true_eq] at hbit
      omega
    · rintro ⟨h1, h2⟩
      refine ⟨t' - e.bit_size, by omega, by omega, ?_⟩
      rw [Nat.one_shiftLeft, Nat.testBit_two_pow, decide_eq_true_eq]
      omega
  rcases Nat.lt_or_ge t e.bit_size with ht | ht
  · have hxf : ((fun c => c ||| c <<< 1)^[n] (1 <<< e.bit_size)).testBit t = false := by
      rw [← Bool.not_eq_true]
      intro hq
      have := (hx t).1 hq
      omega
    simp [hxf, ht]
  · have hdf : decide (t < e.bit_size) = false := by simp; omega
    rcases le_or_lt t (e.bit_size + n) with hle | hgt
    · have hxt : ((fun c => c ||| c <<< 1)^[n] (1 <<< e.bit_size)).testBit t = true :=
        (hx t).2 ⟨ht, hle⟩
      simp [hxt, hdf]
    · have hcf : ((fun c => c ||| c <<< 1)^[n] e.coding).testBit t = false := by
        apply Nat.testBit_lt_two_pow
        exact lt_of_lt_of_le (iterate_orShiftLeft_lt n e.coding e.bit_size h)
          (Nat.pow_le_pow_right (by norm_num) (by omega))
      simp [hcf, hdf]

/-- C4 (amended): `post_expand` extends each set bit toward the
most-significant end: it equals `extra_bits` repetitions of OR-ing the value
with itself left-shifted by 1, with bits at or past the width boundary
discarded; bit `p` of the result is set iff some source bit lies at most
`extra_bits` positions below `p` within the width. -/
theorem C4_post_expand_spec (e : EBEncoding) (n : ℕ) (h : e.coding < 2 ^ e.bit_size) :
    (e.post_expand n
      = ⟨((fun c => c ||| c <<< 1)^[n] e.coding) % 2 ^ e.bit_size, e.bit_size⟩) ∧
    (∀ p, ((e.post_expand n).coding.testBit p = true ↔
      p < e.bit_size ∧ ∃ j, j ≤ n ∧ j ≤ p ∧ e.coding.testBit (p - j) = true)) := by
  refine ⟨post_expand_eq e h n, ?_⟩
  intro p
  rw [post_expand_eq e h n]
  simp only [Nat.testBit_mod_two_pow, Bool.and_eq_true, decide_eq_true_eq]
  rw [iterate_orShiftLeft_testBit]

/-- C4 counterexample: for the validly constructed encoding of value 2 at
width 4 and `extra_bits = 1`, the claimed right-shift semantics predicts
`2 ||| (2 >>> 1) = 3`, but the code produces 6 (the set bit extends toward
the most significant end). -/
theorem C4_counterexample :
    EBEncoding.construct 2 4 = .ok ⟨2, 4⟩ ∧
    EBEncoding.post_expand ⟨2, 4⟩ 1 = ⟨6, 4⟩ ∧
    (6 : ℕ) ≠ 2 ||| (2 >>> 1) := ⟨rfl, rfl, by decide⟩

/-- Witness for C4: expanding the single least significant bit of `⟨1, 3⟩` by
2 extra bits gives the three low bits `⟨7, 3⟩`. -/
theorem C4_post_expand_spec_witness :
    EBEncoding.post_expand ⟨1, 3⟩ 2 = ⟨7, 3⟩ :=
  ((C4_post_expand_spec ⟨1, 3⟩ 2 (by norm_num)).1).trans rfl

/-- C8: `post_expand 0` is the identity on a validly constructed encoding,
and `post_expand` never sets a bit at or past the original width: the value
stays below `2 ^ width`, and the width and the `bit_sequence` length are
unchanged. -/
theorem C8_post_expand_invariants (e : EBEncoding) (n : ℕ)
    (h : e.coding < 2 ^ e.bit_size - 1) :
    e.post_expand 0 = e ∧
    (e.post_expand n).coding < 2 ^ e.bit_size ∧
    (e.post_expand n).bit_size = e.bit_size ∧
    (e.post_expand n).get_bin_list.length = e.bit_size := by
  have h' : e.coding < 2 ^ e.bit_size := by omega
  refine ⟨?_, ?_, ?_, ?_⟩
  · obtain ⟨c, w⟩ := e
    rw [post_expand_eq ⟨c, w⟩ h' 0]
    simp only at h'
    simp [Nat.mod_eq_of_lt h']
  · rw [post_expand_eq e h' n]
    exact Nat.mod_lt _ (Nat.pos_pow_of_pos _ (by norm_num))
  · rw [post_expand_eq e h' n]
  · simp only [EBEncoding.get_bin_list, List.length_map, List.length_range]
    rw [post_expand_eq e h' n]


/-- Witness for C8 at `e = ⟨5, 4⟩`, `n = 2`. -/
theorem C8_post_expand_invariants_witness :
    EBEncoding.post_expand ⟨5, 4⟩ 0 = ⟨5, 4⟩ ∧
    (EBEncoding.post_expand ⟨5, 4⟩ 2).coding < 2 ^ 4 ∧
    (EBEncoding.post_expand ⟨5, 4⟩ 2).bit_size = 4 ∧
    (EBEncoding.post_expand ⟨5, 4⟩ 2).get_bin_list.length = 4 :=
  C8_post_expand_invariants ⟨5, 4⟩ 2 (by norm_num)

/-- Every `scale_down` result fits its new width: the loop only ORs in bit
positions below `final_size`. -/
theorem scale_down_lt (e : EBEncoding) (g : ℕ) :
    (e.scale_down g).coding < 2 ^ (e.scale_down g).bit_size := by
  unfold EBEncoding.scale_down
  dsimp only
  apply orFold_lt_two_pow
  · exact Nat.pos_pow_of_pos _ (by norm_num)
  · intro i hi
    rw [List.mem_range] at hi
    omega

/-- C10 (amended): the construction invariant `value < 2^width - 1` is not
preserved by the in-place mutators: `post_expand` on value 1, width 2 with
one extra bit (the claimed instance, value 2, expands out of the width and is
unchanged) and `scale_down` on value 5, width 4 with groups of 2 both leave
the all-ones pattern `2^width - 1`, after which `clone` raises the
construction error; only the weaker invariant `value < 2^width` is preserved
by both mutators. -/
theorem C10_invariant_not_preserved :
    (EBEncoding.construct 1 2 = .ok ⟨1, 2⟩ ∧
      EBEncoding.post_expand ⟨1, 2⟩ 1 = ⟨3, 2⟩ ∧ (3 : ℕ) = 2 ^ 2 - 1 ∧
      EBEncoding.clone ⟨3, 2⟩ = .error invalidWidthMsg) ∧
    (EBEncoding.construct 5 4 = .ok ⟨5, 4⟩ ∧
      EBEncoding.scale_down ⟨5, 4⟩ 2 = ⟨3, 2⟩ ∧
      EBEncoding.clone ⟨3, 2⟩ = .error invalidWidthMsg) ∧
    (∀ (e : EBEncoding) (n : ℕ), e.coding < 2 ^ e.bit_size →
      (e.post_expand n).coding < 2 ^ (e.post_expand n).bit_size) ∧
    (∀ (e : EBEncoding) (g : ℕ), 1 ≤ g →
      (e.scale_down g).coding < 2 ^ (e.scale_down g).bit_size) := by
  refine ⟨⟨rfl, rfl, by norm_num, rfl⟩, ⟨rfl, rfl, rfl⟩, ?_, ?_⟩
  · intro e n h
    rw [post_expand_eq e h n]
    exact Nat.mod_lt _ (Nat.pos_pow_of_pos _ (by norm_num))
  · intro e g _
    exact scale_down_lt e g

/-- Witness for C10's universally quantified weak-invariant parts. -/
theorem C10_invariant_not_preserved_witness :
    (EBEncoding.post_expand ⟨2, 3⟩ 5).coding
        < 2 ^ (EBEncoding.post_expand ⟨2, 3⟩ 5).bit_size ∧
    (EBEncoding.scale_down ⟨9, 4⟩ 3).coding
        < 2 ^ (EBEncoding.scale_down ⟨9, 4⟩ 3).bit_size :=
  ⟨C10_invariant_not_preserved.2.2.1 ⟨2, 3⟩ 5 (by norm_num),
   C10_invariant_not_preserved.2.2.2 ⟨9, 4⟩ 3 (by norm_num)⟩

/-- C5 counterexample: `⟨5, 3⟩` is validly constructed and non-zero, but
`interaction ⟨5,3⟩ ⟨5,3⟩ 1` raises the constructor overflow error instead of
succeeding, because the post-expansion fills in all three bits and the
all-ones value is rejected by the constructor inside `eb_and`. -/
theorem C5_counterexample :
    EBEncoding.construct 5 3 = .ok ⟨5, 3⟩ ∧ (5 : ℕ) ≠ 0 ∧
    EBEncoding.interaction ⟨5, 3⟩ ⟨5, 3⟩ 1 = .error invalidWidthMsg :=
  ⟨rfl, by norm_num, rfl⟩

/-- C5 (amended): for a non-zero validly constructed `e`, `interaction e e k`
equals the `eb_and` of the post-expansion of `e` by `k` with itself (which
succeeds exactly when the expanded value is not the all-ones pattern, and
raises `InvalidWidth` otherwise), and whenever it succeeds the result is
non-zero. -/
theorem C5_interaction_self (e : EBEncoding) (k : ℕ)
    (hnz : e.coding ≠ 0) (h : e.coding < 2 ^ e.bit_size - 1) :
    (EBEncoding.interaction e e k
        = EBEncoding.eb_and (e.post_expand k) (e.post_expand k)) ∧
    (∀ r, EBEncoding.interaction e e k = .ok r → r.coding ≠ 0) := by
  have h' : e.coding < 2 ^ e.bit_size := by omega
  have hclone : e.clone = .ok e := by
    obtain ⟨c, w⟩ := e
    simp only [EBEncoding.clone, EBEncoding.size, EBEncoding.construct]
    simp only at h
    rw [if_neg (by omega)]
  have hmain : EBEncoding.interaction e e k
      = EBEncoding.eb_and (e.post_expand k) (e.post_expand k) := by
    unfold EBEncoding.interaction
    rw [if_neg (by simp [EBEncoding.coding_value, hnz])]
    simp only [EBEncoding.op_consistence, if_neg (by simp : ¬(e.size ≠ e.size)), hclone]
    rfl
  refine ⟨hmain, ?_⟩
  have hpec : (e.post_expand k).coding ≠ 0 := by
    rw [post_expand_eq e h' k]
    show ((fun c => c ||| c <<< 1)^[k] e.coding) % 2 ^ e.bit_size ≠ 0
    obtain ⟨t, ht⟩ := Nat.ne_zero_implies_bit_true hnz
    have htw : t < e.bit_size := by
      have hge := Nat.testBit_implies_ge ht
      by_contra hc
      have : 2 ^ e.bit_size ≤ 2 ^ t := Nat.pow_le_pow_right (by norm_num) (by omega)
      omega
    intro h0
    have hbit : (((fun c => c ||| c <<< 1)^[k] e.coding) % 2 ^ e.bit_size).testBit t
        = true := by
      rw [Nat.testBit_mod_two_pow, Bool.and_eq_true]
      refine ⟨by simpa using htw, ?_⟩
      rw [iterate_orShiftLeft_testBit]
      exact ⟨0, Nat.zero_le _, Nat.zero_le _, by simpa using ht⟩
    rw [h0] at hbit
    simp at hbit
  intro r hr
  rw [hmain] at hr
  unfold EBEncoding.eb_and at hr
  rw [if_pos rfl] at hr
  unfold EBEncoding.construct at hr
  by_cases hg : 2 ^ (e.post_expand k).size - 1
      ≤ (e.post_expand k).coding_value &&& (e.post_expand k).coding_value
  · rw [if_pos hg] at hr
    cases hr
  · rw [if_neg hg] at hr
    cases hr
    simpa [EBEncoding.coding_value, Nat.and_self] using hpec

/-- Group content of `scale_down`: the slice for output index `k` contains a
`'1'` exactly when some source bit of group `k` is set. Source bit indices
are most-significant-first (`idx` maps to integer bit `bit_size - 1 - idx`). -/
theorem scale_down_group (e : EBEncoding) (g : ℕ) (hg : 1 ≤ g) (k : ℕ)
    (hk : k < (e.bit_size + g - 1) / g) :
    ((((e.get_bin_list).drop (k * g)).take
        (min ((k + 1) * g) (e.get_bin_list).length - k * g)).count '1' > 0 ↔
      ∃ idx, k * g ≤ idx ∧ idx < min ((k + 1) * g) e.bit_size ∧
        e.coding.testBit (e.bit_size - 1 - idx) = true) := by
  have hlen : (e.get_bin_list).length = e.bit_size := by
    simp [EBEncoding.get_bin_list]
  have hkg : k * g < e.bit_size := by
    have h2 : (k + 1) * g ≤ e.bit_size + g - 1 :=
      (Nat.le_div_iff_mul_le (by omega)).1 hk
    have h3 : (k + 1) * g = k * g + g := Nat.succ_mul k g
    omega
  rw [gt_iff_lt, List.count_pos_iff, List.mem_iff_getElem]
  constructor
  · rintro ⟨t, ht, hchar⟩
    simp only [List.length_take, List.length_drop, hlen] at ht
    simp only [List.getElem_take, List.getElem_drop, EBEncoding.get_bin_list,
      List.getElem_map, List.getElem_range] at hchar
    by_cases hbit : e.coding.testBit (e.bit_size - 1 - (k * g + t))
    · exact ⟨k * g + t, by omega, by omega, hbit⟩
    · rw [if_neg hbit] at hchar
      cases hchar
  · rintro ⟨idx, h1, h2, hbit⟩
    refine ⟨idx - k * g, ?_, ?_⟩
    · simp only [List.length_take, List.length_drop, hlen]
      omega
    · simp only [List.getElem_take, List.getElem_drop, EBEncoding.get_bin_list,
        List.getElem_map, List.getElem_range]
      have heq : k * g + (idx - k * g) = idx := by omega
      rw [heq, hbit]
      rfl

/-- Output bit `k` (most-significant-first) of `scale_down` is the OR of
source group `k`. -/
theorem scale_down_testBit (e : EBEncoding) (g : ℕ) (hg : 1 ≤ g) (k : ℕ)
    (hk : k < (e.bit_size + g - 1) / g) :
    ((e.scale_down g).coding.testBit ((e.bit_size + g - 1) / g - 1 - k) = true ↔
      ∃ idx, k * g ≤ idx ∧ idx < min ((k + 1) * g) e.bit_size ∧
        e.coding.testBit (e.bit_size - 1 - idx) = true) := by
  unfold EBEncoding.scale_down
  dsimp only
  rw [testBit_orFold
    (fun i => (((e.get_bin_list).drop (i * g)).take
        (min ((i + 1) * g) (e.get_bin_list).length - i * g)).count '1' > 0)
    (fun i => (e.bit_size + g - 1) / g - i - 1)]
  simp only [Nat.zero_testBit, Bool.false_eq_true, false_or, List.mem_range]
  constructor
  · rintro ⟨i, hi, hP, hpos⟩
    have hik : i = k := by omega
    subst hik
    exact (scale_down_group e g hg i hi).1 hP
  · intro hex
    exact ⟨k, hk, (scale_down_group e g hg k hk).2 hex, by omega⟩

/-- Witness for C5: expanding `⟨2,3⟩` by one bit gives `⟨6,3⟩`, and its
self-interaction succeeds with that non-zero value. -/
theorem C5_interaction_self_witness :
    EBEncoding.interaction ⟨2, 3⟩ ⟨2, 3⟩ 1 = .ok ⟨6, 3⟩ ∧
    (⟨6, 3⟩ : EBEncoding).coding ≠ 0 := by
  have h := C5_interaction_self ⟨2, 3⟩ 1 (by norm_num) (by norm_num)
  have he : EBEncoding.interaction ⟨2, 3⟩ ⟨2, 3⟩ 1 = .ok ⟨6, 3⟩ := h.1.trans rfl
  exact ⟨he, h.2 ⟨6, 3⟩ he⟩

/-- Merging groups of one bit is the identity on any in-range encoding. -/
theorem scale_down_one (e : EBEncoding) (h : e.coding < 2 ^ e.bit_size) :
    e.scale_down 1 = e := by
  obtain ⟨c, w⟩ := e
  simp only at h
  have hF : (w + 1 - 1) / 1 = w := by simp
  have hsize : (EBEncoding.scale_down ⟨c, w⟩ 1).bit_size = w := by
    simp [EBEncoding.scale_down]
  have hcode : (EBEncoding.scale_down ⟨c, w⟩ 1).coding = c := by
    apply Nat.eq_of_testBit_eq
    intro t
    rcases Nat.lt_or_ge t w with htw | htw
    · have hk : w - 1 - (w - 1 - t) = t := by omega
      have hlt : w - 1 - t < (w + 1 - 1) / 1 := by omega
      have hiff := scale_down_testBit ⟨c, w⟩ 1 le_rfl (w - 1 - t) hlt
      simp only [hF] at hiff
      rw [hk] at hiff
      have hbits : (∃ idx, (w - 1 - t) * 1 ≤ idx ∧
          idx < min ((w - 1 - t + 1) * 1) w ∧ c.testBit (w - 1 - idx) = true) ↔
          c.testBit t = true := by
        constructor
        · rintro ⟨idx, hi1, hi2, hi3⟩
          have : idx = w - 1 - t := by omega
          subst this
          have : w - 1 - (w - 1 - t) = t := by omega
          rwa [this] at hi3
        · intro hbit
          refine ⟨w - 1 - t, by omega, by omega, ?_⟩
          rwa [hk]
      rw [hbits] at hiff
      cases hb : c.testBit t
      · cases hsd : (EBEncoding.scale_down ⟨c, w⟩ 1).coding.testBit t
        · rfl
        · rw [hsd] at hiff
          rw [hiff.1 rfl] at hb
          cases hb
      · exact hiff.2 hb
    · have h1 : (EBEncoding.scale_down ⟨c, w⟩ 1).coding < 2 ^ t := by
        have := scale_down_lt ⟨c, w⟩ 1
        rw [hsize] at this
        exact lt_of_lt_of_le this (Nat.pow_le_pow_right (by norm_num) htw)
      have h2 : c < 2 ^ t :=
        lt_of_lt_of_le h (Nat.pow_le_pow_right (by norm_num) htw)
      rw [Nat.testBit_lt_two_pow h1, Nat.testBit_lt_two_pow h2]
  rcases hsd : EBEncoding.scale_down ⟨c, w⟩ 1 with ⟨c2, w2⟩
  rw [hsd] at hcode hsize
  simp only at hcode hsize
  simp [hcode, hsize]

/-- C6: `scale_down` ORs consecutive groups of `group_size` bits, taken from
the most-significant end, into single bits: the new width is the ceiling of
`width / group_size`, output bit `k` (0 = most significant, i.e. integer bit
`new_width - 1 - k`) is set iff some bit of source group `k` is set, and
`scale_down 1` is the identity. -/
theorem C6_scale_down_spec (e : EBEncoding) (g : ℕ) (hg : 1 ≤ g)
    (h : e.coding < 2 ^ e.bit_size) :
    ((e.scale_down g).bit_size = (e.bit_size + g - 1) / g) ∧
    (∀ k, k < (e.bit_size + g - 1) / g →
      ((e.scale_down g).coding.testBit ((e.bit_size + g - 1) / g - 1 - k) = true ↔
        ∃ idx, k * g ≤ idx ∧ idx < min ((k + 1) * g) e.bit_size ∧
          e.coding.testBit (e.bit_size - 1 - idx) = true)) ∧
    e.scale_down 1 = e :=
  ⟨rfl, fun k hk => scale_down_testBit e g hg k hk, scale_down_one e h⟩

/-- Witness for C6: `⟨5,4⟩` (bits `0101`) scaled by groups of two has width 2
and its output bit 1 (integer bit 0... the less significant output) set via
source index 1; `⟨9,4⟩` is unchanged by `scale_down 1`. -/
theorem C6_scale_down_spec_witness :
    (EBEncoding.scale_down ⟨5, 4⟩ 2).bit_size = 2 ∧
    (EBEncoding.scale_down ⟨5, 4⟩ 2).coding.testBit 1 = true ∧
    EBEncoding.scale_down ⟨9, 4⟩ 1 = ⟨9, 4⟩ := by
  have h := C6_scale_down_spec ⟨5, 4⟩ 2 (by norm_num) (by norm_num)
  have h2 := C6_scale_down_spec ⟨9, 4⟩ 1 (by norm_num) (by norm_num)
  refine ⟨h.1, ?_, h2.2.2⟩
  have hb := (h.2.1 0 (by norm_num)).2 ⟨1, by omega, by norm_num, by decide⟩
  simpa using hb

/-- Monadic fold over `Except` whose every step succeeds is the pure fold of
the per-step success values. -/
theorem foldlM_ok {α β : Type} (f : β → α → Except String β) (g : β → α → β) :
    ∀ (l : List α), (∀ a ∈ l, ∀ acc, f acc a = .ok (g acc a)) →
      ∀ b, l.foldlM f b = .ok (l.foldl g b) := by
  intro l
  induction l with
  | nil => intro _ b; rfl
  | cons hd tl ih =>
    intro h b
    rw [List.foldlM_cons, h hd (by simp) b]
    show tl.foldlM f (g b hd) = .ok (tl.foldl g (g b hd))
    exact ih (fun a ha acc => h a (by simp [ha]) acc) (g b hd)

/-- Fold that appends an optional entry per element, and inserts its key into
the key set, described as `filterMap` plus the `Finset` of its keys. -/
theorem foldl_push_entries {α : Type} [DecidableEq α]
    (ent : ℕ × ℕ → Option (α × ℕ)) :
    ∀ (l : List (ℕ × ℕ)) (L : List (α × ℕ)) (S : Finset α),
      l.foldl (fun acc ij =>
          (ent ij).elim acc (fun p => (acc.1 ++ [p], insert p.1 acc.2))) (L, S)
        = (L ++ l.filterMap ent,
           S ∪ ((l.filterMap ent).map Prod.fst).toFinset) := by
  intro l
  induction l with
  | nil => intro L S; simp
  | cons hd tl ih =>
    intro L S
    rw [List.foldl_cons]
    cases hent : ent hd with
    | none =>
      dsimp only
      rw [Option.elim_none, ih]
      simp [List.filterMap_cons, hent]
    | some p =>
      dsimp only
      rw [Option.elim_some, ih]
      simp only [List.filterMap_cons, hent, List.map_cons, List.toFinset_cons]
      rw [Finset.insert_union, Finset.union_insert]
      simp [List.append_assoc]

/-- C7 (amended): `intersection` fails with `IncompatibleSize` on collections
of different element counts; on equal counts, provided every pairwise
interaction succeeds (it can raise, e.g. when a post-expansion reaches the
all-ones pattern), it returns the association list of exactly the strict
upper-triangle index pairs with non-zero interaction — each key `"i j"`
mapped to the interaction's integer value — together with the set of those
keys. -/
theorem C7_intersection_spec (v1 v2 : EBVector) (pe : ℕ) :
    (v1.get_size ≠ v2.get_size →
      EBVector.intersection v1 v2 pe = .error incompatibleSizeMsg) ∧
    (v1.get_size = v2.get_size →
      (∀ ij ∈ upperPairs v1.get_size, ∃ r, interAt v1 v2 pe ij = .ok r) →
      EBVector.intersection v1 v2 pe
        = .ok ((upperPairs v1.get_size).filterMap (interEntry v1 v2 pe),
               (((upperPairs v1.get_size).filterMap (interEntry v1 v2 pe)).map
                  Prod.fst).toFinset)) := by
  constructor
  · intro hne
    unfold EBVector.intersection
    rw [if_pos hne]
  · intro heq hok
    unfold EBVector.intersection
    rw [if_neg (by simp [heq])]
    rw [foldlM_ok _
      (fun acc ij =>
        (interEntry v1 v2 pe ij).elim acc
          (fun p => (acc.1 ++ [p], insert p.1 acc.2)))
      (upperPairs v1.get_size) ?_ ([], ∅)]
    · refine congrArg Except.ok ?_
      have h2 := foldl_push_entries (interEntry v1 v2 pe) (upperPairs v1.get_size)
        ([] : List (String × ℕ)) (∅ : Finset String)
      simp only [List.nil_append, Finset.empty_union] at h2
      exact h2
    · intro ij hij acc
      obtain ⟨r, hr⟩ := hok ij hij
      show (interAt v1 v2 pe ij >>= fun inter_coding =>
        if inter_coding.coding_value ≠ 0 then
          pure (acc.1 ++ [(pairKey ij.1 ij.2, inter_coding.coding_value)],
                insert (pairKey ij.1 ij.2) acc.2)
        else pure acc) = _
      rw [hr]
      show (if r.coding_value ≠ 0 then _ else _) = _
      by_cases hnz : r.coding_value ≠ 0
      · rw [if_pos hnz]
        simp only [interEntry, hr, if_pos hnz, Option.elim_some]
        rfl
      · rw [if_neg hnz]
        simp only [interEntry, hr, if_neg hnz, Option.elim_none]
        rfl

/-- Witness for C7 (the claim's concrete scenario): two 2-element collections
with identical non-zero encodings and `extra_bits = 0` yield exactly one key,
the pair `i = 0, j = 1`, mapped to the `eb_and` of the two encodings. -/
theorem C7_intersection_spec_witness :
    EBVector.intersection ⟨[2, 2], 3⟩ ⟨[2, 2], 3⟩ 0
      = .ok ([(pairKey 0 1, 2)], {pairKey 0 1}) ∧
    EBEncoding.eb_and ⟨2, 3⟩ ⟨2, 3⟩ = .ok ⟨2, 3⟩ := by
  have h := (C7_intersection_spec ⟨[2, 2], 3⟩ ⟨[2, 2], 3⟩ 0).2 rfl ?_
  · refine ⟨h.trans ?_, rfl⟩
    rfl
  · intro ij hij
    rw [show upperPairs (⟨[2, 2], 3⟩ : EBVector).get_size = [(0, 1)] from rfl] at hij
    rw [List.mem_singleton] at hij
    subst hij
    exact ⟨⟨2, 3⟩, rfl⟩

/-- C7 counterexample: two collections of equal element count (2 = 2) on
which `intersection` does not return a mapping at all: the pairwise
interaction of `⟨5,3⟩` with itself at one extra bit raises the constructor
overflow error, which propagates out of `intersection` (and differs from the
incompatible-size error). -/
theorem C7_counterexample :
    (⟨[5, 5], 3⟩ : EBVector).get_size = (⟨[5, 5], 3⟩ : EBVector).get_size ∧
    EBVector.intersection ⟨[5, 5], 3⟩ ⟨[5, 5], 3⟩ 1 = .error invalidWidthMsg ∧
    invalidWidthMsg ≠ incompatibleSizeMsg := ⟨rfl, rfl, by decide⟩

/-- C10 counterexample: the claim's cited `post_expand` instance (value 2,
width 2, one extra bit) does not produce the all-ones pattern — the single
set bit expands out of the width and is masked away, leaving the value
unchanged at 2, and `clone` still succeeds on it. -/
theorem C10_counterexample :
    EBEncoding.construct 2 2 = .ok ⟨2, 2⟩ ∧
    EBEncoding.post_expand ⟨2, 2⟩ 1 = ⟨2, 2⟩ ∧ (2 : ℕ) ≠ 2 ^ 2 - 1 ∧
    EBEncoding.clone ⟨2, 2⟩ = .ok ⟨2, 2⟩ := ⟨rfl, rfl, by norm_num, rfl⟩
